import Mathlib

/-!
# Verification of the `runner` package (sequential task runner)

Shallow embedding of `runner.go`.  A `Step` carries a name, an optional
fallible action (`Run`), a `Dependent` flag and an optional skip predicate
(`SkipFunc`).  `Steps.Run` iterates the whole sequence from index 0,
logging a "skip" event for indices below the start index or for steps whose
skip predicate fires, and a "do" event followed by an action invocation
otherwise; the first failing action stops the run with a wrapped error.

Side effects of the Go code (log output, action invocations, skip-predicate
calls) are made observable as a trace of `Event`s, so that statements about
"the action was invoked exactly once" or "the predicate was never
evaluated" are statements about the trace.  A call through a `nil` Go
function value is modelled as the `RunResult.panicked` outcome.
-/

namespace Runner

/-- Observable effects of a run, in program order:
`evalSkip i b` records that the step at index `i` had its (non-nil) skip
predicate called and it returned `b`; `invoke i` records that the action of
the step at index `i` was called; `logDo`/`logSkip` are the two structured
log events emitted by the loop in `Steps.Run`. -/
inductive Event where
  | evalSkip (index : Nat) (result : Bool)
  | invoke (index : Nat)
  | logDo (index : Nat) (name : String)
  | logSkip (index : Nat) (name : String)
deriving DecidableEq, Repr

/-- Outcome of `Steps.Run` / `Steps.RunFromCommand`.
`panicked` models a Go runtime panic (index out of range, or calling a
`nil` function value); the three error constructors model the error values
built with `errors.Errorf` / `errors.Wrapf` / `errors.Wrap`, keeping the
data (index, name, wrapped cause) structured. -/
inductive RunResult where
  | ok
  | panicked
  | dependentErr (index : Nat) (name : String)
  | stepErr (index : Nat) (name : String) (cause : String)
  | commandErr (cause : String)
deriving DecidableEq, Repr

/-- `Step` from runner.go.  `Run : Option (Option String)` models the Go
field `Run func() error`: `none` is a nil function value; `some none` an
action that returns `nil`; `some (some msg)` an action that returns an
error with message `msg`.  `Skip : Option Bool` models the embedded
`SkipFunc`: `none` is a nil predicate, `some b` a predicate returning `b`
(each step's predicate is called at most once per run). -/
structure Step where
  Name : String
  Run : Option (Option String)
  Dependent : Bool
  Skip : Option Bool
deriving DecidableEq, Repr

/-- `SkipFunc.shouldSkip` from runner.go: a nil predicate never skips,
otherwise the predicate's verdict decides. -/
def shouldSkip : Option Bool → Bool
  | none => false
  | some b => b

/-- The trace a call to `shouldSkip` leaves behind: a nil predicate is not
called at all, a non-nil one is evaluated once. -/
def skipEvents (i : Nat) : Option Bool → List Event
  | none => []
  | some b => [Event.evalSkip i b]

/-- One iteration of the loop body of `Steps.Run` for the step `s` at
index `i`: the Go condition `i >= startIndex && !step.shouldSkip()`
(short-circuit: the predicate is only evaluated when `start ≤ i`), then
either the do-branch (log, call the action, stop on error or on a nil
function) or the skip log.  Returns the events emitted and `some r` when
the loop terminates with result `r`, `none` when it continues. -/
def stepOutcome (start i : Nat) (s : Step) : List Event × Option RunResult :=
  if start ≤ i then
    if shouldSkip s.Skip then
      (skipEvents i s.Skip ++ [Event.logSkip i s.Name], none)
    else
      match s.Run with
      | none =>
          (skipEvents i s.Skip ++ [Event.logDo i s.Name], some RunResult.panicked)
      | some none =>
          (skipEvents i s.Skip ++ [Event.logDo i s.Name, Event.invoke i], none)
      | some (some msg) =>
          (skipEvents i s.Skip ++ [Event.logDo i s.Name, Event.invoke i],
            some (RunResult.stepErr i s.Name msg))
  else ([Event.logSkip i s.Name], none)

/-- The `for i, step := range ss` loop of `Steps.Run`, with `i` the index
of the head of the remaining list. -/
def runSteps (start : Nat) : List Step → Nat → List Event × RunResult
  | [], _ => ([], RunResult.ok)
  | s :: rest, i =>
    match stepOutcome start i s with
    | (evs, some r) => (evs, r)
    | (evs, none) =>
        let tail := runSteps start rest (i + 1)
        (evs ++ tail.1, tail.2)

/-- `Steps` is `[]Step`. -/
abbrev Steps := List Step

/-- `Steps.Run` from runner.go: index the start step (a Go panic when out
of range), reject a dependent start, otherwise run the loop over the whole
sequence from index 0. -/
def Steps.Run (ss : Steps) (startIndex : Nat) : List Event × RunResult :=
  match ss[startIndex]? with
  | none => ([], RunResult.panicked)
  | some startStep =>
    if startStep.Dependent then
      ([], RunResult.dependentErr startIndex startStep.Name)
    else
      runSteps startIndex ss 0

/-- `Steps.RunAll` from runner.go. -/
def Steps.RunAll (ss : Steps) : List Event × RunResult :=
  Steps.Run ss 0

/-- The action invocations recorded in a trace, in order. -/
def invokes (tr : List Event) : List Nat :=
  tr.filterMap fun e =>
    match e with
    | Event.invoke i => some i
    | _ => none

/-- Go `%q` on a string: surrounding double quotes, escaping the
characters that occur in this development's alphabet (quote, backslash,
newline, tab); other printable characters are kept verbatim. -/
def goEscapeChar (c : Char) : String :=
  if c = '"' then "\\\""
  else if c = '\\' then "\\\\"
  else if c = '\n' then "\\n"
  else if c = '\t' then "\\t"
  else String.singleton c

/-- Go `%q` rendering of a name. -/
def goQuote (s : String) : String :=
  "\"" ++ String.join (s.data.map goEscapeChar) ++ "\""

/-- `getName` from runner.go: `fmt.Sprintf("%v:%q", index, s.Name)`. -/
def getName (s : Step) (index : Nat) : String :=
  toString index ++ ":" ++ goQuote s.Name

/-- The index-carrying loop of `Steps.Names`. -/
def namesFrom : Nat → List Step → List String
  | _, [] => []
  | i, s :: rest => getName s i :: namesFrom (i + 1) rest

/-- `Steps.Names` from runner.go: one display label per step, in order. -/
def Steps.Names (ss : Steps) : List String :=
  namesFrom 0 ss

/-- All-decimal-digit run parsed as a number; `none` on an empty run or on
any non-digit, as in `strconv.Atoi`. -/
def parseDigits (l : List Char) : Option Nat :=
  if l ≠ [] ∧ l.all Char.isDigit then
    some (l.foldl (fun acc c => acc * 10 + (c.toNat - 48)) 0)
  else none

/-- `strconv.Atoi`: optional single sign followed by at least one decimal
digit.  (Go additionally errors on machine-int overflow; behind
`Steps.GetStep`'s range guard `0 ≤ n < len` that difference is
unobservable, so the unbounded value is kept.) -/
def Atoi (s : String) : Option Int :=
  match s.data with
  | '+' :: rest => (parseDigits rest).map Int.ofNat
  | '-' :: rest => (parseDigits rest).map fun n => -(n : Int)
  | l => (parseDigits l).map Int.ofNat

/-- The numeric branch of `Steps.GetStep`:
`err == nil && fromInt >= 0 && fromInt < len(ss)`. -/
def numericIndex (ss : Steps) (command : String) : Option Nat :=
  match Atoi command with
  | some fromInt =>
      if 0 ≤ fromInt ∧ fromInt < (ss.length : Int) then some fromInt.toNat
      else none
  | none => none

/-- The `for i, step := range ss` scan of `Steps.GetStep`: the index of
the first step (at base index `i`) whose name equals the command. -/
def findByName (command : String) : List Step → Nat → Option Nat
  | [], _ => none
  | s :: rest, i =>
      if s.Name = command then some i else findByName command rest (i + 1)

/-- The `errors.Errorf` message of `Steps.GetStep`:
`%q is not a valid process step name, use: %v` with the identifiers joined
by `", "`. -/
def invalidStepMessage (ss : Steps) (command : String) : String :=
  goQuote command ++ " is not a valid process step name, use: "
    ++ String.intercalate ", " (Steps.Names ss)

/-- `Steps.GetStep` from runner.go: in-range numeric command, else first
step whose name equals the command, else the `errors.Errorf` message
listing every valid identifier. -/
def Steps.GetStep (ss : Steps) (command : String) : Except String Nat :=
  match numericIndex ss command with
  | some fromInt => Except.ok fromInt
  | none =>
    match findByName command ss 0 with
    | some i => Except.ok i
    | none => Except.error (invalidStepMessage ss command)

/-- `Steps.RunFromCommand` from runner.go: resolve the command, wrap a
resolution failure with `errors.Wrap(err, "could not parse command")`
without running anything, otherwise run from the resolved index. -/
def Steps.RunFromCommand (ss : Steps) (command : String) : List Event × RunResult :=
  match Steps.GetStep ss command with
  | Except.error e => ([], RunResult.commandErr ("could not parse command: " ++ e))
  | Except.ok start => Steps.Run ss start

/-- `Steps.Add` from runner.go, functionally: `*ss = append(*ss, step)`;
the returned handle is the mutated sequence. -/
def Steps.Add (ss : Steps) (step : Step) : Steps :=
  ss ++ [step]

/-! ## Infrastructure lemmas about the run loop -/

/-- The indices whose actions the loop invokes, computed directly from the
step data: every index at or after `start` whose step is not skipped, up
to and including the first such step whose action is missing or fails. -/
def specInvokes (start : Nat) : List Step → Nat → List Nat
  | [], _ => []
  | s :: rest, i =>
    if start ≤ i ∧ shouldSkip s.Skip = false then
      match s.Run with
      | none => []
      | some none => i :: specInvokes start rest (i + 1)
      | some (some _) => [i]
    else specInvokes start rest (i + 1)

theorem invokes_append (t₁ t₂ : List Event) :
    invokes (t₁ ++ t₂) = invokes t₁ ++ invokes t₂ :=
  List.filterMap_append t₁ t₂ _

theorem invokes_skipEvents (i : Nat) (o : Option Bool) :
    invokes (skipEvents i o) = [] := by
  cases o <;> rfl

theorem runSteps_nil (start i : Nat) :
    runSteps start [] i = ([], RunResult.ok) := rfl

theorem runSteps_cons_below (start i : Nat) (s : Step) (rest : List Step)
    (h : ¬ start ≤ i) :
    runSteps start (s :: rest) i =
      (Event.logSkip i s.Name :: (runSteps start rest (i + 1)).1,
        (runSteps start rest (i + 1)).2) := by
  simp [runSteps, stepOutcome, h]

theorem runSteps_cons_skip (start i : Nat) (s : Step) (rest : List Step)
    (h1 : start ≤ i) (h2 : shouldSkip s.Skip = true) :
    runSteps start (s :: rest) i =
      (skipEvents i s.Skip ++ Event.logSkip i s.Name :: (runSteps start rest (i + 1)).1,
        (runSteps start rest (i + 1)).2) := by
  simp [runSteps, stepOutcome, h1, h2]

theorem runSteps_cons_nilAction (start i : Nat) (s : Step) (rest : List Step)
    (h1 : start ≤ i) (h2 : shouldSkip s.Skip = false) (h3 : s.Run = none) :
    runSteps start (s :: rest) i =
      (skipEvents i s.Skip ++ [Event.logDo i s.Name], RunResult.panicked) := by
  simp [runSteps, stepOutcome, h1, h2, h3]

theorem runSteps_cons_okAction (start i : Nat) (s : Step) (rest : List Step)
    (h1 : start ≤ i) (h2 : shouldSkip s.Skip = false) (h3 : s.Run = some none) :
    runSteps start (s :: rest) i =
      (skipEvents i s.Skip ++ Event.logDo i s.Name :: Event.invoke i ::
          (runSteps start rest (i + 1)).1,
        (runSteps start rest (i + 1)).2) := by
  simp [runSteps, stepOutcome, h1, h2, h3]

theorem runSteps_cons_failAction (start i : Nat) (s : Step) (rest : List Step)
    (msg : String)
    (h1 : start ≤ i) (h2 : shouldSkip s.Skip = false) (h3 : s.Run = some (some msg)) :
    runSteps start (s :: rest) i =
      (skipEvents i s.Skip ++ [Event.logDo i s.Name, Event.invoke i],
        RunResult.stepErr i s.Name msg) := by
  simp [runSteps, stepOutcome, h1, h2, h3]

/-- The invocations the loop records are exactly `specInvokes`. -/
theorem invokes_runSteps (start : Nat) (l : List Step) (i : Nat) :
    invokes (runSteps start l i).1 = specInvokes start l i := by
  induction l generalizing i with
  | nil => rfl
  | cons s rest ih =>
    by_cases h1 : start ≤ i
    · by_cases h2 : shouldSkip s.Skip
      · rw [runSteps_cons_skip start i s rest h1 h2]
        have : specInvokes start (s :: rest) i = specInvokes start rest (i + 1) := by
          simp [specInvokes, h2]
        rw [this, ← ih (i + 1)]
        have := invokes_append (skipEvents i s.Skip)
          (Event.logSkip i s.Name :: (runSteps start rest (i + 1)).1)
        rw [this, invokes_skipEvents]
        simp [invokes]
      · rcases h3 : s.Run with _ | rr
        · rw [runSteps_cons_nilAction start i s rest h1 (by simpa using h2) h3]
          have : specInvokes start (s :: rest) i = [] := by
            simp [specInvokes, h1, h2, h3]
          rw [this, invokes_append, invokes_skipEvents]
          simp [invokes]
        · rcases rr with _ | msg
          · rw [runSteps_cons_okAction start i s rest h1 (by simpa using h2) h3]
            have : specInvokes start (s :: rest) i = i :: specInvokes start rest (i + 1) := by
              simp [specInvokes, h1, h2, h3]
            rw [this, ← ih (i + 1), invokes_append, invokes_skipEvents]
            simp [invokes]
          · rw [runSteps_cons_failAction start i s rest msg h1 (by simpa using h2) h3]
            have : specInvokes start (s :: rest) i = [i] := by
              simp [specInvokes, h1, h2, h3]
            rw [this, invokes_append, invokes_skipEvents]
            simp [invokes]
    · rw [runSteps_cons_below start i s rest h1]
      have : specInvokes start (s :: rest) i = specInvokes start rest (i + 1) := by
        simp [specInvokes, h1]
      rw [this, ← ih (i + 1)]
      simp [invokes]

/-- Splitting the loop: if the first segment completes without a
terminating outcome, the loop continues into the second segment at the
shifted index; otherwise the second segment is never reached. -/
theorem runSteps_append (start : Nat) (l₁ l₂ : List Step) (i : Nat) :
    ((runSteps start l₁ i).2 = RunResult.ok →
      runSteps start (l₁ ++ l₂) i =
        ((runSteps start l₁ i).1 ++ (runSteps start l₂ (i + l₁.length)).1,
          (runSteps start l₂ (i + l₁.length)).2))
    ∧ ((runSteps start l₁ i).2 ≠ RunResult.ok →
      runSteps start (l₁ ++ l₂) i = runSteps start l₁ i) := by
  induction l₁ generalizing i with
  | nil =>
    refine ⟨fun _ => ?_, fun h => absurd rfl h⟩
    simp [runSteps_nil]
  | cons s rest ih =>
    have harith : i + 1 + rest.length = i + (rest.length + 1) := by omega
    by_cases h1 : start ≤ i
    · by_cases h2 : shouldSkip s.Skip
      · constructor
        · intro hok
          rw [runSteps_cons_skip start i s rest h1 h2] at hok
          rw [List.cons_append, runSteps_cons_skip start i s (rest ++ l₂) h1 h2,
            (ih (i + 1)).1 hok, runSteps_cons_skip start i s rest h1 h2]
          simp [harith]
        · intro hne
          rw [runSteps_cons_skip start i s rest h1 h2] at hne
          rw [List.cons_append, runSteps_cons_skip start i s (rest ++ l₂) h1 h2,
            (ih (i + 1)).2 hne, runSteps_cons_skip start i s rest h1 h2]
      · rcases h3 : s.Run with _ | rr
        · have h2' : shouldSkip s.Skip = false := by simpa using h2
          constructor
          · intro hok
            rw [runSteps_cons_nilAction start i s rest h1 h2' h3] at hok
            simp at hok
          · intro _
            rw [List.cons_append, runSteps_cons_nilAction start i s (rest ++ l₂) h1 h2' h3,
              runSteps_cons_nilAction start i s rest h1 h2' h3]
        · rcases rr with _ | msg
          · have h2' : shouldSkip s.Skip = false := by simpa using h2
            constructor
            · intro hok
              rw [runSteps_cons_okAction start i s rest h1 h2' h3] at hok
              rw [List.cons_append, runSteps_cons_okAction start i s (rest ++ l₂) h1 h2' h3,
                (ih (i + 1)).1 hok, runSteps_cons_okAction start i s rest h1 h2' h3]
              simp [harith]
            · intro hne
              rw [runSteps_cons_okAction start i s rest h1 h2' h3] at hne
              rw [List.cons_append, runSteps_cons_okAction start i s (rest ++ l₂) h1 h2' h3,
                (ih (i + 1)).2 hne, runSteps_cons_okAction start i s rest h1 h2' h3]
          · have h2' : shouldSkip s.Skip = false := by simpa using h2
            constructor
            · intro hok
              rw [runSteps_cons_failAction start i s rest msg h1 h2' h3] at hok
              simp at hok
            · intro _
              rw [List.cons_append,
                runSteps_cons_failAction start i s (rest ++ l₂) msg h1 h2' h3,
                runSteps_cons_failAction start i s rest msg h1 h2' h3]
    · constructor
      · intro hok
        rw [runSteps_cons_below start i s rest h1] at hok
        rw [List.cons_append, runSteps_cons_below start i s (rest ++ l₂) h1,
          (ih (i + 1)).1 hok, runSteps_cons_below start i s rest h1]
        simp [harith]
      · intro hne
        rw [runSteps_cons_below start i s rest h1] at hne
        rw [List.cons_append, runSteps_cons_below start i s (rest ++ l₂) h1,
          (ih (i + 1)).2 hne, runSteps_cons_below start i s rest h1]

/-- If every step of the segment that lies at or after `start` and is not
skipped has an action that returns success, the segment completes with
`ok`. -/
theorem runSteps_ok (start : Nat) (l : List Step) (i : Nat)
    (hsucc : ∀ j (hj : j < l.length), start ≤ i + j →
      shouldSkip (l[j]).Skip = false → (l[j]).Run = some none) :
    (runSteps start l i).2 = RunResult.ok := by
  induction l generalizing i with
  | nil => rfl
  | cons s rest ih =>
    have htail : (runSteps start rest (i + 1)).2 = RunResult.ok := by
      refine ih (i + 1) fun j hj hs hsk => ?_
      have h0 := hsucc (j + 1) (by simpa using Nat.succ_lt_succ hj)
      simp only [List.getElem_cons_succ] at h0
      exact h0 (by omega) hsk
    by_cases h1 : start ≤ i
    · by_cases h2 : shouldSkip s.Skip
      · rw [runSteps_cons_skip start i s rest h1 h2]
        exact htail
      · have h2' : shouldSkip s.Skip = false := by simpa using h2
        have h3 : s.Run = some none := by
          have h0 := hsucc 0 (by simp) (by omega)
          simpa using h0 h2'
        rw [runSteps_cons_okAction start i s rest h1 h2' h3]
        exact htail
    · rw [runSteps_cons_below start i s rest h1]
      exact htail

/-- Bounds on the invocation pattern: all invoked indices lie at or after
both `start` and the base index, and inside the segment. -/
theorem specInvokes_bounds (start : Nat) (l : List Step) (i x : Nat)
    (hx : x ∈ specInvokes start l i) :
    start ≤ x ∧ i ≤ x ∧ x < i + l.length := by
  induction l generalizing i with
  | nil => simp [specInvokes] at hx
  | cons s rest ih =>
    by_cases h1 : start ≤ i ∧ shouldSkip s.Skip = false
    · obtain ⟨h1a, h1b⟩ := h1
      rcases h3 : s.Run with _ | rr
      · simp [specInvokes, h1a, h1b, h3] at hx
      · rcases rr with _ | msg
        · rw [specInvokes, if_pos ⟨h1a, h1b⟩, h3] at hx
          rcases List.mem_cons.1 hx with hx | hx
          · simp only [List.length_cons]
            omega
          · have := ih (i + 1) hx
            simp only [List.length_cons]
            omega
        · rw [specInvokes, if_pos ⟨h1a, h1b⟩, h3] at hx
          simp at hx
          simp only [List.length_cons]
          omega
    · rw [specInvokes, if_neg h1] at hx
      have := ih (i + 1) hx
      simp only [List.length_cons]
      omega

/-- The invoked indices are strictly increasing (each invoked at most
once, in ascending order). -/
theorem specInvokes_pairwise (start : Nat) (l : List Step) (i : Nat) :
    List.Pairwise (· < ·) (specInvokes start l i) := by
  induction l generalizing i with
  | nil => simp [specInvokes]
  | cons s rest ih =>
    by_cases h1 : start ≤ i ∧ shouldSkip s.Skip = false
    · rcases h3 : s.Run with _ | rr
      · simp [specInvokes, h1, h3]
      · rcases rr with _ | msg
        · rw [specInvokes, if_pos h1, h3]
          refine List.pairwise_cons.2 ⟨fun y hy => ?_, ih (i + 1)⟩
          have := specInvokes_bounds start rest (i + 1) y hy
          omega
        · rw [specInvokes, if_pos h1, h3]
          simp
    · rw [specInvokes, if_neg h1]
      exact ih (i + 1)

/-- Under the all-actions-succeed hypothesis, index `i + j` is invoked iff
the step at local position `j` lies at or after `start` and is not
skipped. -/
theorem specInvokes_mem_idx (start : Nat) (l : List Step) (i : Nat)
    (hsucc : ∀ j (hj : j < l.length), start ≤ i + j →
      shouldSkip (l[j]).Skip = false → (l[j]).Run = some none)
    (j : Nat) (hj : j < l.length) :
    (i + j ∈ specInvokes start l i) ↔
      (start ≤ i + j ∧ shouldSkip (l[j]).Skip = false) := by
  induction l generalizing i j with
  | nil => simp at hj
  | cons s rest ih =>
    have hsuccRest : ∀ j (hj : j < rest.length), start ≤ (i + 1) + j →
        shouldSkip (rest[j]).Skip = false → (rest[j]).Run = some none := by
      intro j hj hs hsk
      have h0 := hsucc (j + 1) (by simpa using Nat.succ_lt_succ hj)
      simp only [List.getElem_cons_succ] at h0
      exact h0 (by omega) hsk
    by_cases h1 : start ≤ i ∧ shouldSkip s.Skip = false
    · have h3 : s.Run = some none := by
        have h0 := hsucc 0 (by simp) (by omega)
        simpa using h0 h1.2
      rw [specInvokes, if_pos h1, h3]
      cases j with
      | zero =>
        simp only [Nat.add_zero, List.getElem_cons_zero]
        constructor
        · intro _; exact ⟨h1.1, h1.2⟩
        · intro _; exact List.mem_cons_self _ _
      | succ j' =>
        have hj' : j' < rest.length := by simpa using hj
        have harith : i + (j' + 1) = (i + 1) + j' := by omega
        constructor
        · intro hx
          rcases List.mem_cons.1 hx with hx | hx
          · omega
          · rw [harith] at hx
            have := (ih (i + 1) hsuccRest j' hj').1 hx
            simp only [List.getElem_cons_succ]
            constructor
            · omega
            · exact this.2
        · intro hx
          simp only [List.getElem_cons_succ] at hx
          refine List.mem_cons.2 (Or.inr ?_)
          rw [harith]
          exact (ih (i + 1) hsuccRest j' hj').2 ⟨by omega, hx.2⟩
    · rw [specInvokes, if_neg h1]
      cases j with
      | zero =>
        simp only [Nat.add_zero, List.getElem_cons_zero]
        constructor
        · intro hx
          have := specInvokes_bounds start rest (i + 1) i hx
          omega
        · intro hx
          exact absurd ⟨hx.1, hx.2⟩ h1
      | succ j' =>
        have hj' : j' < rest.length := by simpa using hj
        have harith : i + (j' + 1) = (i + 1) + j' := by omega
        simp only [List.getElem_cons_succ]
        rw [harith]
        exact ih (i + 1) hsuccRest j' hj'

/-- The loop itself never produces a dependent-start error; that error
only arises from the guard before the loop. -/
theorem runSteps_ne_dependentErr (start : Nat) (l : List Step) (i : Nat)
    (j : Nat) (n : String) :
    (runSteps start l i).2 ≠ RunResult.dependentErr j n := by
  induction l generalizing i with
  | nil => simp [runSteps_nil]
  | cons s rest ih =>
    by_cases h1 : start ≤ i
    · by_cases h2 : shouldSkip s.Skip
      · rw [runSteps_cons_skip start i s rest h1 h2]
        exact ih (i + 1)
      · have h2' : shouldSkip s.Skip = false := by simpa using h2
        rcases h3 : s.Run with _ | rr
        · rw [runSteps_cons_nilAction start i s rest h1 h2' h3]
          simp
        · rcases rr with _ | msg
          · rw [runSteps_cons_okAction start i s rest h1 h2' h3]
            exact ih (i + 1)
          · rw [runSteps_cons_failAction start i s rest msg h1 h2' h3]
            simp
    · rw [runSteps_cons_below start i s rest h1]
      exact ih (i + 1)

/-- A skip-predicate evaluation is only ever recorded for an index at or
after `start`: the `i >= startIndex && !step.shouldSkip()` condition
short-circuits before the predicate for earlier indices. -/
theorem runSteps_evalSkip_ge (start : Nat) (l : List Step) (i idx : Nat) (b : Bool)
    (hmem : Event.evalSkip idx b ∈ (runSteps start l i).1) :
    start ≤ idx := by
  induction l generalizing i with
  | nil => simp [runSteps_nil] at hmem
  | cons s rest ih =>
    by_cases h1 : start ≤ i
    · have hskipEvents : Event.evalSkip idx b ∈ skipEvents i s.Skip → start ≤ idx := by
        intro hm
        cases hsk : s.Skip with
        | none => rw [hsk] at hm; simp [skipEvents] at hm
        | some bb =>
          rw [hsk] at hm
          simp only [skipEvents, List.mem_singleton] at hm
          cases hm
          exact h1
      by_cases h2 : shouldSkip s.Skip
      · rw [runSteps_cons_skip start i s rest h1 h2] at hmem
        rcases List.mem_append.1 hmem with hm | hm
        · exact hskipEvents hm
        · rcases List.mem_cons.1 hm with hm | hm
          · cases hm
          · exact ih (i + 1) hm
      · have h2' : shouldSkip s.Skip = false := by simpa using h2
        rcases h3 : s.Run with _ | rr
        · rw [runSteps_cons_nilAction start i s rest h1 h2' h3] at hmem
          rcases List.mem_append.1 hmem with hm | hm
          · exact hskipEvents hm
          · simp at hm
        · rcases rr with _ | msg
          · rw [runSteps_cons_okAction start i s rest h1 h2' h3] at hmem
            rcases List.mem_append.1 hmem with hm | hm
            · exact hskipEvents hm
            · rcases List.mem_cons.1 hm with hm | hm
              · cases hm
              · rcases List.mem_cons.1 hm with hm | hm
                · cases hm
                · exact ih (i + 1) hm
          · rw [runSteps_cons_failAction start i s rest msg h1 h2' h3] at hmem
            rcases List.mem_append.1 hmem with hm | hm
            · exact hskipEvents hm
            · simp at hm
    · rw [runSteps_cons_below start i s rest h1] at hmem
      rcases List.mem_cons.1 hmem with hm | hm
      · cases hm
      · exact ih (i + 1) hm

/-- An action invocation is only ever recorded for an index at or after
`start`. -/
theorem runSteps_invoke_ge (start : Nat) (l : List Step) (i idx : Nat)
    (hmem : Event.invoke idx ∈ (runSteps start l i).1) :
    start ≤ idx := by
  induction l generalizing i with
  | nil => simp [runSteps_nil] at hmem
  | cons s rest ih =>
    by_cases h1 : start ≤ i
    · have hskipEvents : Event.invoke idx ∈ skipEvents i s.Skip → start ≤ idx := by
        intro hm
        cases hsk : s.Skip with
        | none => rw [hsk] at hm; simp [skipEvents] at hm
        | some bb => rw [hsk] at hm; simp [skipEvents] at hm
      by_cases h2 : shouldSkip s.Skip
      · rw [runSteps_cons_skip start i s rest h1 h2] at hmem
        rcases List.mem_append.1 hmem with hm | hm
        · exact hskipEvents hm
        · rcases List.mem_cons.1 hm with hm | hm
          · cases hm
          · exact ih (i + 1) hm
      · have h2' : shouldSkip s.Skip = false := by simpa using h2
        rcases h3 : s.Run with _ | rr
        · rw [runSteps_cons_nilAction start i s rest h1 h2' h3] at hmem
          rcases List.mem_append.1 hmem with hm | hm
          · exact hskipEvents hm
          · simp at hm
        · rcases rr with _ | msg
          · rw [runSteps_cons_okAction start i s rest h1 h2' h3] at hmem
            rcases List.mem_append.1 hmem with hm | hm
            · exact hskipEvents hm
            · rcases List.mem_cons.1 hm with hm | hm
              · cases hm
              · rcases List.mem_cons.1 hm with hm | hm
                · cases hm; exact h1
                · exact ih (i + 1) hm
          · rw [runSteps_cons_failAction start i s rest msg h1 h2' h3] at hmem
            rcases List.mem_append.1 hmem with hm | hm
            · exact hskipEvents hm
            · rcases List.mem_cons.1 hm with hm | hm
              · cases hm
              · rcases List.mem_cons.1 hm with hm | hm
                · cases hm; exact h1
                · simp at hm
    · rw [runSteps_cons_below start i s rest h1] at hmem
      rcases List.mem_cons.1 hmem with hm | hm
      · cases hm
      · exact ih (i + 1) hm

/-- Every step strictly below `start` is reported as skipped: the loop
emits its "skip step" log entry unconditionally before any later step can
terminate the loop. -/
theorem runSteps_logSkip_below (start : Nat) (l : List Step) (i : Nat)
    (j : Nat) (hj : j < l.length) (hbelow : i + j < start) :
    Event.logSkip (i + j) ((l[j]).Name) ∈ (runSteps start l i).1 := by
  induction l generalizing i j with
  | nil => simp at hj
  | cons s rest ih =>
    have h1 : ¬ start ≤ i := by omega
    rw [runSteps_cons_below start i s rest h1]
    cases j with
    | zero =>
      simp only [Nat.add_zero, List.getElem_cons_zero]
      exact List.mem_cons_self _ _
    | succ j' =>
      have hj' : j' < rest.length := by simpa using hj
      have harith : i + (j' + 1) = (i + 1) + j' := by omega
      simp only [List.getElem_cons_succ]
      refine List.mem_cons.2 (Or.inr ?_)
      rw [harith]
      exact ih (i + 1) j' hj' (by omega)

/-- With an in-range, non-dependent start index, `Steps.Run` is the loop
over the whole sequence. -/
theorem Run_eq_runSteps (ss : Steps) (start : Nat)
    (hlen : start < ss.length) (hdep : (ss[start]).Dependent = false) :
    Steps.Run ss start = runSteps start ss 0 := by
  unfold Steps.Run
  rw [List.getElem?_eq_getElem hlen]
  simp [hdep]

/-- Splitting the whole-sequence loop at position `k`, provided every
non-skipped step at or after `start` and before `k` has a successful
action: the prefix completes, and the loop continues at `k`. -/
theorem runSteps_split_at (ss : Steps) (start k : Nat) (hk : k < ss.length)
    (hbefore : ∀ j (hj : j < ss.length), start ≤ j → j < k →
      shouldSkip (ss[j]).Skip = false → (ss[j]).Run = some none) :
    runSteps start ss 0 =
      ((runSteps start (ss.take k) 0).1 ++
          (runSteps start ((ss[k]) :: ss.drop (k + 1)) k).1,
        (runSteps start ((ss[k]) :: ss.drop (k + 1)) k).2) := by
  have hconcat : ss.take k ++ ((ss[k]) :: ss.drop (k + 1)) = ss := by
    rw [← List.drop_eq_getElem_cons hk, List.take_append_drop]
  have hlenA : (ss.take k).length = k := by
    rw [List.length_take]; omega
  have hok : (runSteps start (ss.take k) 0).2 = RunResult.ok := by
    refine runSteps_ok start (ss.take k) 0 fun j hj hsj hsk => ?_
    have hjk : j < k := by rw [hlenA] at hj; exact hj
    have hjlen : j < ss.length := by omega
    have hget : (ss.take k)[j] = ss[j] := List.getElem_take ss
    rw [hget] at hsk ⊢
    exact hbefore j hjlen (by omega) hjk hsk
  have happ := (runSteps_append start (ss.take k) ((ss[k]) :: ss.drop (k + 1)) 0).1 hok
  rw [hconcat, hlenA, Nat.zero_add] at happ
  exact happ

/-- Membership in the invocation pattern of a successful prefix. -/
theorem specInvokes_take_mem (ss : Steps) (start k : Nat) (hk : k ≤ ss.length)
    (hbefore : ∀ j (hj : j < ss.length), start ≤ j → j < k →
      shouldSkip (ss[j]).Skip = false → (ss[j]).Run = some none)
    (idx : Nat) :
    idx ∈ specInvokes start (ss.take k) 0 ↔
      ∃ hj : idx < ss.length, start ≤ idx ∧ idx < k ∧
        shouldSkip (ss[idx]).Skip = false := by
  have hlenA : (ss.take k).length = k := by
    rw [List.length_take]; omega
  have hsuccA : ∀ j (hj : j < (ss.take k).length), start ≤ 0 + j →
      shouldSkip ((ss.take k)[j]).Skip = false → ((ss.take k)[j]).Run = some none := by
    intro j hj hsj hsk
    have hjk : j < k := by rw [hlenA] at hj; exact hj
    have hjlen : j < ss.length := by omega
    have hget : (ss.take k)[j] = ss[j] := List.getElem_take ss
    rw [hget] at hsk ⊢
    exact hbefore j hjlen (by omega) hjk hsk
  constructor
  · intro hx
    have hb := specInvokes_bounds start (ss.take k) 0 idx hx
    rw [hlenA] at hb
    have hik : idx < k := by omega
    have hj : idx < ss.length := by omega
    refine ⟨hj, by omega, hik, ?_⟩
    have hidxA : idx < (ss.take k).length := by omega
    have hmem := (specInvokes_mem_idx start (ss.take k) 0 hsuccA idx hidxA).1
      (by simpa using hx)
    have hget : (ss.take k)[idx] = ss[idx] := List.getElem_take ss
    rw [hget] at hmem
    exact hmem.2
  · rintro ⟨hj, hs, hik, hsk⟩
    have hidxA : idx < (ss.take k).length := by omega
    have hget : (ss.take k)[idx] = ss[idx] := List.getElem_take ss
    have hmem := (specInvokes_mem_idx start (ss.take k) 0 hsuccA idx hidxA).2
      (by rw [hget]; exact ⟨by omega, hsk⟩)
    simpa using hmem

/-! ## The claims -/

/-- **C3.** For every sequence and every in-range start index whose step
is marked dependent, `Run` fails with a dependent-start error identifying
that step's index and name, and invokes zero actions across the whole
sequence: no event at all is emitted, in particular no invocation. -/
theorem run_dependent_start_fails_without_side_effects (ss : Steps) (start : Nat)
    (hlen : start < ss.length) (hdep : (ss[start]).Dependent = true) :
    Steps.Run ss start = ([], RunResult.dependentErr start ((ss[start]).Name))
    ∧ invokes (Steps.Run ss start).1 = [] := by
  have h : Steps.Run ss start = ([], RunResult.dependentErr start ((ss[start]).Name)) := by
    unfold Steps.Run
    rw [List.getElem?_eq_getElem hlen]
    simp [hdep]
  exact ⟨h, by rw [h]; rfl⟩

/-- Witness for C3: a two-step sequence whose second step is dependent;
starting there fails up front and nothing at all is executed. -/
theorem run_dependent_start_witness :
    Steps.Run [⟨"a", some none, false, none⟩, ⟨"b", some none, true, none⟩] 1 =
      ([], RunResult.dependentErr 1 "b")
    ∧ invokes (Steps.Run [⟨"a", some none, false, none⟩, ⟨"b", some none, true, none⟩] 1).1 = [] :=
  run_dependent_start_fails_without_side_effects
    [⟨"a", some none, false, none⟩, ⟨"b", some none, true, none⟩] 1
    (by decide) (by decide)

/-- A demonstration sequence: four steps, the third skipped by its
predicate, all actions present and successful. -/
def demoRun : Steps :=
  [⟨"init", some none, false, none⟩,
   ⟨"build", some none, false, none⟩,
   ⟨"cache", some none, false, some true⟩,
   ⟨"deploy", some none, false, some false⟩]

/-- **C1 (amended).** For every non-empty sequence and every in-range,
non-dependent start index, provided every step at or after the start
index whose skip predicate is absent or evaluates false has an action set
and that action succeeds: `Run` returns success, invokes exactly the
actions of those steps — each exactly once, in ascending index order,
none below the start index, and none whose skip predicate evaluates
true. -/
theorem run_success_invocation_pattern (ss : Steps) (start : Nat)
    (hlen : start < ss.length)
    (hdep : (ss[start]).Dependent = false)
    (hsucc : ∀ j (hj : j < ss.length), start ≤ j →
      shouldSkip (ss[j]).Skip = false → (ss[j]).Run = some none) :
    (Steps.Run ss start).2 = RunResult.ok
    ∧ List.Pairwise (· < ·) (invokes (Steps.Run ss start).1)
    ∧ ∀ idx, idx ∈ invokes (Steps.Run ss start).1 ↔
        ∃ hj : idx < ss.length, start ≤ idx ∧ shouldSkip (ss[idx]).Skip = false := by
  have hrun : Steps.Run ss start = runSteps start ss 0 := Run_eq_runSteps ss start hlen hdep
  have hsucc0 : ∀ j (hj : j < ss.length), start ≤ 0 + j →
      shouldSkip (ss[j]).Skip = false → (ss[j]).Run = some none :=
    fun j hj hs hsk => hsucc j hj (by omega) hsk
  refine ⟨?_, ?_, ?_⟩
  · rw [hrun]
    exact runSteps_ok start ss 0 hsucc0
  · rw [hrun, invokes_runSteps]
    exact specInvokes_pairwise start ss 0
  · intro idx
    rw [hrun, invokes_runSteps]
    constructor
    · intro hx
      have hb := specInvokes_bounds start ss 0 idx hx
      have hj : idx < ss.length := by omega
      refine ⟨hj, by omega, ?_⟩
      exact ((specInvokes_mem_idx start ss 0 hsucc0 idx hj).1 (by simpa using hx)).2
    · rintro ⟨hj, hs, hsk⟩
      have := (specInvokes_mem_idx start ss 0 hsucc0 idx hj).2 ⟨by omega, hsk⟩
      simpa using this

/-- Witness for C1 (amended) at `demoRun`, start index 1: the run
succeeds, the invoked indices are strictly ascending, and an index is
invoked iff it is in range, at or after 1, and not skipped. -/
theorem run_success_invocation_pattern_witness :
    (Steps.Run demoRun 1).2 = RunResult.ok
    ∧ List.Pairwise (· < ·) (invokes (Steps.Run demoRun 1).1)
    ∧ ∀ idx, idx ∈ invokes (Steps.Run demoRun 1).1 ↔
        ∃ hj : idx < demoRun.length, 1 ≤ idx ∧ shouldSkip (demoRun[idx]).Skip = false :=
  run_success_invocation_pattern demoRun 1 (by decide) (by decide)
    (by decide)

/-- The sequence refuting C1 as stated: the first action fails, so the
second step — eligible under the claim (index ≥ start, skip predicate
absent) — is never invoked. -/
def seqFirstFails : Steps :=
  [⟨"a", some (some "boom"), false, none⟩, ⟨"b", some none, false, none⟩]

/-- **C1 counterexample.** On `seqFirstFails` with start index 0 (in
range, not dependent), step 1 has no skip predicate, yet `Run 0` records
invocations `[0]` only: the action of step 1 is not invoked, contradicting
"invokes the action of every step at index ≥ start_index whose skip
predicate is absent or evaluates false exactly once". -/
theorem run_success_invocation_pattern_counterexample :
    0 < seqFirstFails.length
    ∧ (seqFirstFails.get ⟨0, by decide⟩).Dependent = false
    ∧ (seqFirstFails.get ⟨1, by decide⟩).Skip = none
    ∧ invokes (Steps.Run seqFirstFails 0).1 = [0]
    ∧ Event.invoke 1 ∉ (Steps.Run seqFirstFails 0).1 := by
  refine ⟨by decide, by decide, by decide, by decide, by decide⟩

/-- **C2.** For every sequence and in-range non-dependent start index, if
the first failing action is at index `k ≥ start` — the step at `k` is not
skipped and its action returns the error `msg`, while every non-skipped
step from the start index up to `k` has a successful action — then `Run`
returns a step-execution error carrying index `k`, that step's name and
the original cause `msg`; the invoked indices are strictly ascending, and
an index is invoked iff it is in range, at or after the start index, at or
before `k`, and not skipped (so each non-skipped index in
`start..k-1` and `k` itself exactly once, and nothing after `k`). -/
theorem run_first_failure_stops (ss : Steps) (start k : Nat) (msg : String)
    (hstart : start < ss.length)
    (hk : k < ss.length) (hsk : start ≤ k)
    (hdep : (ss[start]).Dependent = false)
    (hkskip : shouldSkip ((ss[k]).Skip) = false)
    (hkfail : (ss[k]).Run = some (some msg))
    (hbefore : ∀ j (hj : j < ss.length), start ≤ j → j < k →
      shouldSkip (ss[j]).Skip = false → (ss[j]).Run = some none) :
    (Steps.Run ss start).2 = RunResult.stepErr k ((ss[k]).Name) msg
    ∧ List.Pairwise (· < ·) (invokes (Steps.Run ss start).1)
    ∧ ∀ idx, idx ∈ invokes (Steps.Run ss start).1 ↔
        ∃ hj : idx < ss.length, start ≤ idx ∧ idx ≤ k ∧
          shouldSkip (ss[idx]).Skip = false := by
  have hrun : Steps.Run ss start = runSteps start ss 0 := Run_eq_runSteps ss start hstart hdep
  have hsplit := runSteps_split_at ss start k hk hbefore
  have hseg := runSteps_cons_failAction start k (ss[k]) (ss.drop (k + 1)) msg hsk hkskip hkfail
  have hinv : invokes (Steps.Run ss start).1 = specInvokes start (ss.take k) 0 ++ [k] := by
    rw [hrun, hsplit]
    simp only
    rw [invokes_append, invokes_runSteps, hseg]
    simp only
    rw [invokes_append, invokes_skipEvents]
    simp [invokes]
  refine ⟨?_, ?_, ?_⟩
  · rw [hrun, hsplit]
    simp only
    rw [hseg]
  · rw [hinv]
    refine (List.pairwise_append).2
      ⟨specInvokes_pairwise start (ss.take k) 0, List.pairwise_singleton _ _, ?_⟩
    intro x hx y hy
    have hb := specInvokes_bounds start (ss.take k) 0 x hx
    have hlenA : (ss.take k).length = k := by
      rw [List.length_take]; omega
    rw [hlenA] at hb
    rcases List.mem_singleton.1 hy with rfl
    omega
  · intro idx
    rw [hinv]
    rw [List.mem_append, List.mem_singleton,
      specInvokes_take_mem ss start k (by omega) hbefore idx]
    constructor
    · rintro (⟨hj, hs, hik, hskip⟩ | rfl)
      · exact ⟨hj, hs, by omega, hskip⟩
      · exact ⟨hk, hsk, le_refl _, hkskip⟩
    · rintro ⟨hj, hs, hik, hskip⟩
      rcases Nat.lt_or_ge idx k with hlt | hge
      · exact Or.inl ⟨hj, hs, hlt, hskip⟩
      · exact Or.inr (by omega)

/-- A sequence whose third step fails, with a skipped second step and a
never-reached fourth step. -/
def demoFail : Steps :=
  [⟨"fetch", some none, false, none⟩,
   ⟨"lint", some none, false, some true⟩,
   ⟨"test", some (some "2 tests failed"), false, some false⟩,
   ⟨"publish", some none, false, none⟩]

/-- Witness for C2 at `demoFail`, start 0, failing index 2: the error
carries index 2, name "test" and the cause, and exactly indices 0 and 2
are invoked. -/
theorem run_first_failure_stops_witness :
    (Steps.Run demoFail 0).2 = RunResult.stepErr 2 "test" "2 tests failed"
    ∧ List.Pairwise (· < ·) (invokes (Steps.Run demoFail 0).1)
    ∧ ∀ idx, idx ∈ invokes (Steps.Run demoFail 0).1 ↔
        ∃ hj : idx < demoFail.length, 0 ≤ idx ∧ idx ≤ 2 ∧
          shouldSkip (demoFail[idx]).Skip = false :=
  run_first_failure_stops demoFail 0 2 "2 tests failed" (by decide) (by decide)
    (by decide) (by decide) (by decide) (by decide) (by decide)

/-- **C5 (amended).** A step with an unset action is accepted by the data
model, by `Names`, `GetStep` and `Add`; but when `Run` reaches it — not
skipped, at or after a non-dependent start index, every earlier
non-skipped step from the start index having succeeded — the run does
not treat it as a harmless no-op: calling the nil function value faults
(modelled `RunResult.panicked`), the step's action is never invoked, and
no later step runs (nothing at an index ≥ the nil-action step is
invoked). -/
theorem run_nil_action_faults (ss : Steps) (start i : Nat)
    (hstart : start < ss.length)
    (hdep : (ss[start]).Dependent = false)
    (hi : i < ss.length) (hsi : start ≤ i)
    (hiskip : shouldSkip ((ss[i]).Skip) = false)
    (hinil : (ss[i]).Run = none)
    (hbefore : ∀ j (hj : j < ss.length), start ≤ j → j < i →
      shouldSkip (ss[j]).Skip = false → (ss[j]).Run = some none) :
    (Steps.Run ss start).2 = RunResult.panicked
    ∧ ∀ idx, idx ∈ invokes (Steps.Run ss start).1 ↔
        ∃ hj : idx < ss.length, start ≤ idx ∧ idx < i ∧
          shouldSkip (ss[idx]).Skip = false := by
  have hrun : Steps.Run ss start = runSteps start ss 0 := Run_eq_runSteps ss start hstart hdep
  have hsplit := runSteps_split_at ss start i hi hbefore
  have hseg := runSteps_cons_nilAction start i (ss[i]) (ss.drop (i + 1)) hsi hiskip hinil
  have hinv : invokes (Steps.Run ss start).1 = specInvokes start (ss.take i) 0 := by
    rw [hrun, hsplit]
    simp only
    rw [invokes_append, invokes_runSteps, hseg]
    simp only
    rw [invokes_append, invokes_skipEvents]
    simp [invokes]
  refine ⟨?_, ?_⟩
  · rw [hrun, hsplit]
    simp only
    rw [hseg]
  · intro idx
    rw [hinv]
    exact specInvokes_take_mem ss start i (by omega) hbefore idx

/-- Witness for C5 (amended): a two-step sequence whose second step has
no action; starting at 0, the first action is invoked, then the run
faults at the nil action. -/
theorem run_nil_action_faults_witness :
    (Steps.Run [⟨"a", some none, false, none⟩, ⟨"noop", none, false, none⟩] 0).2 =
      RunResult.panicked
    ∧ ∀ idx,
        idx ∈ invokes (Steps.Run [⟨"a", some none, false, none⟩,
          ⟨"noop", none, false, none⟩] 0).1 ↔
        ∃ hj : idx < ([⟨"a", some none, false, none⟩,
          ⟨"noop", none, false, none⟩] : Steps).length, 0 ≤ idx ∧ idx < 1 ∧
          shouldSkip ((([⟨"a", some none, false, none⟩,
            ⟨"noop", none, false, none⟩] : Steps)[idx]).Skip) = false :=
  run_nil_action_faults [⟨"a", some none, false, none⟩, ⟨"noop", none, false, none⟩]
    0 1 (by decide) (by decide) (by decide) (by decide) (by decide) (by decide)
    (by decide)

/-- **C5 counterexample.** A single step with an unset action, started at
index 0 (not skipped, not dependent): the code calls the nil function —
the run faults rather than succeeding, so a missing action is not treated
as "runs successfully with no effect" and `Run` does not proceed past
it. -/
theorem run_nil_action_faults_counterexample :
    Steps.Run [⟨"noop", none, false, none⟩] 0 =
      ([Event.logDo 0 "noop"], RunResult.panicked)
    ∧ (Steps.Run [⟨"noop", none, false, none⟩] 0).2 ≠ RunResult.ok := by
  refine ⟨by decide, by decide⟩

/-- **C8.** The dependent flag only restricts the start of a run: `Run`
fails with a dependent-start error iff the step at the start index is
marked dependent (the loop itself never raises that error); and a
dependent step strictly after the start index runs normally when
reached — subject only to its skip predicate, its (present) action is
invoked. -/
theorem run_dependent_flag_only_restricts_start (ss : Steps) (start : Nat)
    (hlen : start < ss.length) :
    ((ss[start]).Dependent = true →
      (Steps.Run ss start).2 = RunResult.dependentErr start ((ss[start]).Name))
    ∧ ((ss[start]).Dependent = false →
      ∀ j n, (Steps.Run ss start).2 ≠ RunResult.dependentErr j n)
    ∧ (∀ i (hi : i < ss.length), (ss[start]).Dependent = false → start < i →
        (ss[i]).Dependent = true →
        shouldSkip ((ss[i]).Skip) = false →
        (ss[i]).Run ≠ none →
        (∀ j (hj : j < ss.length), start ≤ j → j < i →
          shouldSkip (ss[j]).Skip = false → (ss[j]).Run = some none) →
        Event.invoke i ∈ (Steps.Run ss start).1) := by
  refine ⟨?_, ?_, ?_⟩
  · intro hdep
    unfold Steps.Run
    rw [List.getElem?_eq_getElem hlen]
    simp [hdep]
  · intro hdep j n
    rw [Run_eq_runSteps ss start hlen hdep]
    exact runSteps_ne_dependentErr start ss 0 j n
  · intro i hi hdep hgt hidep hiskip hiact hbefore
    rw [Run_eq_runSteps ss start hlen hdep]
    have hsplit := runSteps_split_at ss start i hi hbefore
    rw [hsplit]
    simp only
    refine List.mem_append.2 (Or.inr ?_)
    rcases hr : (ss[i]).Run with _ | rr
    · exact absurd hr hiact
    · rcases rr with _ | m
      · rw [runSteps_cons_okAction start i (ss[i]) (ss.drop (i + 1))
          (by omega) hiskip hr]
        refine List.mem_append.2 (Or.inr ?_)
        exact List.mem_cons.2 (Or.inr (List.mem_cons_self _ _))
      · rw [runSteps_cons_failAction start i (ss[i]) (ss.drop (i + 1)) m
          (by omega) hiskip hr]
        refine List.mem_append.2 (Or.inr ?_)
        simp
/-- Witness for C8 at a three-step sequence whose third step is
dependent: starting at 0 does not raise a dependent-start error, and the
dependent step at index 2 is invoked when reached. -/
theorem run_dependent_flag_only_restricts_start_witness :
    (∀ j n, (Steps.Run [⟨"a", some none, false, none⟩, ⟨"b", some none, false, none⟩,
      ⟨"c", some none, true, none⟩] 0).2 ≠ RunResult.dependentErr j n)
    ∧ Event.invoke 2 ∈ (Steps.Run [⟨"a", some none, false, none⟩,
        ⟨"b", some none, false, none⟩, ⟨"c", some none, true, none⟩] 0).1 :=
  ⟨(run_dependent_flag_only_restricts_start
      [⟨"a", some none, false, none⟩, ⟨"b", some none, false, none⟩,
        ⟨"c", some none, true, none⟩] 0 (by decide)).2.1 (by decide),
   (run_dependent_flag_only_restricts_start
      [⟨"a", some none, false, none⟩, ⟨"b", some none, false, none⟩,
        ⟨"c", some none, true, none⟩] 0 (by decide)).2.2 2 (by decide) (by decide)
      (by decide) (by decide) (by decide) (by decide) (by decide)⟩

/-- **C10.** During an in-range, non-dependent `Run`, the skip predicate
of a step strictly before the start index is never evaluated and its
action is never invoked; such a step is reported as skipped
unconditionally (its "skip step" log event is always emitted). -/
theorem run_prestart_skip_never_evaluated (ss : Steps) (start : Nat)
    (hlen : start < ss.length)
    (hdep : (ss[start]).Dependent = false) :
    ∀ i, i < start →
      (∀ b, Event.evalSkip i b ∉ (Steps.Run ss start).1)
      ∧ Event.invoke i ∉ (Steps.Run ss start).1
      ∧ ∃ hi : i < ss.length, Event.logSkip i ((ss[i]).Name) ∈ (Steps.Run ss start).1 := by
  intro i hbelow
  rw [Run_eq_runSteps ss start hlen hdep]
  have hi : i < ss.length := by omega
  refine ⟨?_, ?_, ⟨hi, ?_⟩⟩
  · intro b hmem
    have := runSteps_evalSkip_ge start ss 0 i b hmem
    omega
  · intro hmem
    have := runSteps_invoke_ge start ss 0 i hmem
    omega
  · have := runSteps_logSkip_below start ss 0 i hi (by omega)
    simpa using this

/-- Witness for C10 at `demoFail`, start 2: step 1 carries an
always-true skip predicate, yet before the start index it is reported
skipped without the predicate ever being evaluated, and its action is
never invoked. -/
theorem run_prestart_skip_never_evaluated_witness :
    (∀ b, Event.evalSkip 1 b ∉ (Steps.Run demoFail 2).1)
    ∧ Event.invoke 1 ∉ (Steps.Run demoFail 2).1
    ∧ ∃ hi : 1 < demoFail.length,
        Event.logSkip 1 ((demoFail[1]).Name) ∈ (Steps.Run demoFail 2).1 :=
  run_prestart_skip_never_evaluated demoFail 2 (by decide) (by decide) 1 (by decide)

/-! ## Infrastructure lemmas about start-index resolution -/

theorem numericIndex_eq_none (ss : Steps) (command : String)
    (hnum : ∀ n, Atoi command = some n → ¬(0 ≤ n ∧ n < (ss.length : Int))) :
    numericIndex ss command = none := by
  unfold numericIndex
  cases h : Atoi command with
  | none => rfl
  | some n =>
    show (if 0 ≤ n ∧ n < (ss.length : Int) then some n.toNat else none) = none
    rw [if_neg (hnum n h)]

theorem findByName_eq_some (command : String) (ss : List Step) :
    ∀ b i (hi : i < ss.length), (ss[i]).Name = command →
      (∀ j (hj : j < ss.length), j < i → (ss[j]).Name ≠ command) →
      findByName command ss b = some (b + i) := by
  induction ss with
  | nil => intro b i hi; simp at hi
  | cons s rest ih =>
    intro b i hi hname hfirst
    cases i with
    | zero =>
      simp only [List.getElem_cons_zero] at hname
      unfold findByName
      rw [if_pos hname, Nat.add_zero]
    | succ i' =>
      have hs : s.Name ≠ command := by
        have := hfirst 0 (by simp) (by omega)
        simpa using this
      unfold findByName
      rw [if_neg hs]
      have hi' : i' < rest.length := by simpa using hi
      have hname' : (rest[i']).Name = command := by simpa using hname
      have hfirst' : ∀ j (hj : j < rest.length), j < i' → (rest[j]).Name ≠ command := by
        intro j hj hji
        have := hfirst (j + 1) (by simpa using Nat.succ_lt_succ hj) (by omega)
        simpa using this
      rw [ih (b + 1) i' hi' hname' hfirst']
      congr 1
      omega

theorem findByName_eq_none (command : String) (ss : List Step) :
    ∀ b, (∀ j (hj : j < ss.length), (ss[j]).Name ≠ command) →
      findByName command ss b = none := by
  induction ss with
  | nil => intro b _; rfl
  | cons s rest ih =>
    intro b hall
    have hs : s.Name ≠ command := by
      have := hall 0 (by simp)
      simpa using this
    unfold findByName
    rw [if_neg hs]
    refine ih (b + 1) fun j hj => ?_
    have := hall (j + 1) (by simpa using Nat.succ_lt_succ hj)
    simpa using this

theorem getStep_name_hit (ss : Steps) (command : String)
    (hnone : numericIndex ss command = none)
    (i : Nat) (hi : i < ss.length) (hname : (ss[i]).Name = command)
    (hfirst : ∀ j (hj : j < ss.length), j < i → (ss[j]).Name ≠ command) :
    Steps.GetStep ss command = Except.ok i := by
  unfold Steps.GetStep
  rw [hnone]
  have := findByName_eq_some command ss 0 i hi hname hfirst
  rw [Nat.zero_add] at this
  rw [this]

theorem getStep_no_match (ss : Steps) (command : String)
    (hnone : numericIndex ss command = none)
    (hall : ∀ j (hj : j < ss.length), (ss[j]).Name ≠ command) :
    Steps.GetStep ss command = Except.error (invalidStepMessage ss command) := by
  unfold Steps.GetStep
  rw [hnone, findByName_eq_none command ss 0 hall]

theorem namesFrom_length (l : List Step) : ∀ i, (namesFrom i l).length = l.length := by
  induction l with
  | nil => intro i; rfl
  | cons s rest ih =>
    intro i
    simp only [namesFrom, List.length_cons, ih (i + 1)]

theorem namesFrom_getElem (l : List Step) :
    ∀ i j (hj : j < l.length), (namesFrom i l)[j]? = some (getName (l[j]) (i + j)) := by
  induction l with
  | nil => intro i j hj; simp at hj
  | cons s rest ih =>
    intro i j hj
    cases j with
    | zero => simp [namesFrom]
    | succ j' =>
      have hj' : j' < rest.length := by simpa using hj
      have := ih (i + 1) j' hj'
      simp only [namesFrom, List.getElem?_cons_succ, List.getElem_cons_succ]
      rw [this]
      congr 2
      omega

/-- **C4.** `GetStep`, in resolution order: an in-range non-negative
numeric command resolves to the parsed integer; otherwise the command
resolves to the index of the first step whose name equals it exactly;
otherwise `GetStep` fails with the error message naming the offending
string and enumerating every valid identifier; and `Names` produces, in
order, one label per step, rendered as the index, a colon and the quoted
name. -/
theorem getStep_resolution_order (ss : Steps) (command : String) :
    (∀ n, Atoi command = some n → 0 ≤ n → n < (ss.length : Int) →
      Steps.GetStep ss command = Except.ok n.toNat)
    ∧ ((∀ n, Atoi command = some n → ¬(0 ≤ n ∧ n < (ss.length : Int))) →
      ∀ i (hi : i < ss.length), (ss[i]).Name = command →
        (∀ j (hj : j < ss.length), j < i → (ss[j]).Name ≠ command) →
        Steps.GetStep ss command = Except.ok i)
    ∧ ((∀ n, Atoi command = some n → ¬(0 ≤ n ∧ n < (ss.length : Int))) →
      (∀ j (hj : j < ss.length), (ss[j]).Name ≠ command) →
      Steps.GetStep ss command =
        Except.error (goQuote command ++ " is not a valid process step name, use: "
          ++ String.intercalate ", " (Steps.Names ss)))
    ∧ ((Steps.Names ss).length = ss.length
      ∧ ∀ j (hj : j < ss.length),
          (Steps.Names ss)[j]? = some (toString j ++ ":" ++ goQuote ((ss[j]).Name))) := by
  refine ⟨?_, ?_, ?_, ?_, ?_⟩
  · intro n hn h0 hlt
    unfold Steps.GetStep
    have : numericIndex ss command = some n.toNat := by
      unfold numericIndex
      rw [hn]
      show (if 0 ≤ n ∧ n < (ss.length : Int) then some n.toNat else none) = some n.toNat
      rw [if_pos ⟨h0, hlt⟩]
    rw [this]
  · intro hnum i hi hname hfirst
    exact getStep_name_hit ss command (numericIndex_eq_none ss command hnum) i hi hname hfirst
  · intro hnum hall
    exact getStep_no_match ss command (numericIndex_eq_none ss command hnum) hall
  · exact namesFrom_length ss 0
  · intro j hj
    have := namesFrom_getElem ss 0 j hj
    rw [Nat.zero_add] at this
    exact this

/-- Witness for C4 at `demoRun` ("init", "build", "cache", "deploy"):
the numeric command "2", the name command "build", and the unmatched
command "bogus". -/
theorem getStep_resolution_order_witness :
    Steps.GetStep demoRun "2" = Except.ok 2
    ∧ Steps.GetStep demoRun "build" = Except.ok 1
    ∧ Steps.GetStep demoRun "bogus" =
        Except.error (goQuote "bogus" ++ " is not a valid process step name, use: "
          ++ String.intercalate ", " (Steps.Names demoRun)) :=
  ⟨(getStep_resolution_order demoRun "2").1 2 (by decide) (by decide) (by decide),
   (getStep_resolution_order demoRun "build").2.1 (by decide) 1 (by decide)
     (by decide) (by decide),
   (getStep_resolution_order demoRun "bogus").2.2.1 (by decide) (by decide)⟩

/-- **C6.** A command that parses as an integer but is out of range
(negative, or ≥ length) is not treated as a valid index: `GetStep` falls
through to exact name matching, and fails with the invalid-reference
error when no step has that string as its name. -/
theorem getStep_numeric_out_of_range_falls_through (ss : Steps) (command : String)
    (n : Int) (hs : Atoi command = some n)
    (hout : ¬(0 ≤ n ∧ n < (ss.length : Int))) :
    (∀ i (hi : i < ss.length), (ss[i]).Name = command →
      (∀ j (hj : j < ss.length), j < i → (ss[j]).Name ≠ command) →
      Steps.GetStep ss command = Except.ok i)
    ∧ ((∀ j (hj : j < ss.length), (ss[j]).Name ≠ command) →
      Steps.GetStep ss command = Except.error (invalidStepMessage ss command)) := by
  have hnone : numericIndex ss command = none := by
    unfold numericIndex
    rw [hs]
    show (if 0 ≤ n ∧ n < (ss.length : Int) then some n.toNat else none) = none
    rw [if_neg hout]
  exact ⟨fun i hi hname hfirst => getStep_name_hit ss command hnone i hi hname hfirst,
    fun hall => getStep_no_match ss command hnone hall⟩

/-- Witness for C6: `GetStep "10"` on the 4-step `demoRun` (no step named
"10") fails with the invalid-reference error, while on a sequence whose
only step is literally named "10" the same out-of-range command resolves
by name to index 0. -/
theorem getStep_numeric_out_of_range_falls_through_witness :
    Steps.GetStep demoRun "10" = Except.error (invalidStepMessage demoRun "10")
    ∧ Steps.GetStep [⟨"10", some none, false, none⟩] "10" = Except.ok 0 :=
  ⟨(getStep_numeric_out_of_range_falls_through demoRun "10" 10 (by decide)
      (by decide)).2 (by decide),
   (getStep_numeric_out_of_range_falls_through [⟨"10", some none, false, none⟩]
      "10" 10 (by decide) (by decide)).1 0 (by decide) (by decide) (by decide)⟩

/-- **C7.** `RunFromCommand` is resolution followed by `Run`: a
resolution failure is returned wrapped with the context "could not parse
command", with an empty trace (`Run` is not entered and no step action is
invoked); a successful resolution hands the resolved index to `Run`. -/
theorem runFromCommand_wraps_resolution (ss : Steps) (command : String) :
    (∀ e, Steps.GetStep ss command = Except.error e →
      Steps.RunFromCommand ss command =
        ([], RunResult.commandErr ("could not parse command: " ++ e)))
    ∧ (∀ i, Steps.GetStep ss command = Except.ok i →
      Steps.RunFromCommand ss command = Steps.Run ss i) := by
  constructor
  · intro e h
    unfold Steps.RunFromCommand
    rw [h]
  · intro i h
    unfold Steps.RunFromCommand
    rw [h]

/-- Witness for C7 at `demoRun`: the unresolvable command "bogus" yields
the wrapped resolution error with an empty trace, and the numeric
command "1" runs from index 1. -/
theorem runFromCommand_wraps_resolution_witness :
    Steps.RunFromCommand demoRun "bogus" =
      ([], RunResult.commandErr ("could not parse command: "
        ++ invalidStepMessage demoRun "bogus"))
    ∧ Steps.RunFromCommand demoRun "1" = Steps.Run demoRun 1 :=
  ⟨(runFromCommand_wraps_resolution demoRun "bogus").1
      (invalidStepMessage demoRun "bogus") (by rfl),
   (runFromCommand_wraps_resolution demoRun "1").2 1 (by rfl)⟩

/-- **C9.** `Add` on a sequence of length n produces a sequence of length
n + 1 whose first n entries are unchanged and whose entry at index n is
the appended step; the returned handle is that extended sequence. -/
theorem add_appends_preserving_prefix (ss : Steps) (step : Step) :
    (Steps.Add ss step).length = ss.length + 1
    ∧ (Steps.Add ss step).take ss.length = ss
    ∧ (Steps.Add ss step)[ss.length]? = some step := by
  refine ⟨?_, ?_, ?_⟩
  · simp [Steps.Add]
  · exact List.take_left ss [step]
  · exact List.getElem?_concat_length ss step

end Runner
